import Mathlib

/-!
Verification of the stick-figure animation core: a shallow embedding of the
bone-hierarchy world-transform math (Bone.ts / Skeleton.ts), the sparse pose
operations (Pose.ts), the action keyframe preview (Action.ts) and the beat
scheduling bookkeeping (Sequence.ts), together with theorems settling the
stated properties of these operations.

Numbers: pose channels, keyframe times, beat times and durations carry no
trigonometry and are embedded as rationals, so every operation on them is
executable and decidable.  The bone world-transform math uses cosine and sine
and is embedded over the reals.  JavaScript angles are degrees throughout,
exactly as in the source.
-/

namespace StickFigure

/-! ## Angle interpolation (Transform.lerpAngle / Pose.lerpAngle)

Both Transform.ts and Pose.ts contain the same private helper:

  let diff = b - a;
  while (diff > 180) diff -= 360;
  while (diff < -180) diff += 360;
  return a + diff * t;

The two while loops are embedded as the recursions reduceHigh and reduceLow.
-/

/-- First while loop of lerpAngle: while (diff > 180) diff -= 360. -/
def reduceHigh (d : ℚ) : ℚ :=
  if 180 < d then reduceHigh (d - 360) else d
termination_by (⌈(d - 180) / 360⌉).toNat
decreasing_by
  have h1 : (0:ℚ) < (d - 180) / 360 := by
    apply div_pos <;> linarith
  have h2 : (0:ℤ) < ⌈(d - 180) / 360⌉ := Int.ceil_pos.mpr h1
  have h3 : (d - 360 - 180) / 360 = (d - 180) / 360 - 1 := by ring
  have h4 : ⌈(d - 360 - 180) / 360⌉ = ⌈(d - 180) / 360⌉ - 1 := by
    rw [h3]; norm_num
  omega

/-- Second while loop of lerpAngle: while (diff < -180) diff += 360. -/
def reduceLow (d : ℚ) : ℚ :=
  if d < -180 then reduceLow (d + 360) else d
termination_by (⌈(-180 - d) / 360⌉).toNat
decreasing_by
  have h1 : (0:ℚ) < (-180 - d) / 360 := by
    apply div_pos <;> linarith
  have h2 : (0:ℤ) < ⌈(-180 - d) / 360⌉ := Int.ceil_pos.mpr h1
  have h3 : (-180 - (d + 360)) / 360 = (-180 - d) / 360 - 1 := by ring
  have h4 : ⌈(-180 - (d + 360)) / 360⌉ = ⌈(-180 - d) / 360⌉ - 1 := by
    rw [h3]; norm_num
  omega

/-- Normalization applied to the rotation delta by lerpAngle: both while
loops in source order. -/
def normDelta (d : ℚ) : ℚ := reduceLow (reduceHigh d)

/-- The shared angular interpolation helper lerpAngle of Transform.ts and
Pose.ts (identical bodies in the two files). -/
def lerpAngle (a b t : ℚ) : ℚ := a + normDelta (b - a) * t

/-- The linear interpolation helper lerpValue of Pose.ts:
a + (b - a) * t. -/
def lerpValue (a b t : ℚ) : ℚ := a + (b - a) * t

/-! ## Pose data model (Pose.ts)

A pose is a sparse bone-name-to-partial-transform map.  The JavaScript Map is
embedded as an insertion-ordered association list; Map key uniqueness becomes
a Nodup hypothesis where a theorem needs it.  The name field of the Pose
class never affects any of the operations below and is omitted.
-/

/-- BoneTransformData of Pose.ts: every channel optional. -/
structure BoneTransformData where
  rotation : Option ℚ
  x : Option ℚ
  y : Option ℚ
  scaleX : Option ℚ
  scaleY : Option ℚ
deriving DecidableEq

/-- The empty partial transform: no channel present (a fresh {} object). -/
def emptyBTD : BoneTransformData :=
  { rotation := none, x := none, y := none, scaleX := none, scaleY := none }

/-- The boneTransforms map of a Pose, as an insertion-ordered association
list. -/
abbrev Pose := List (String × BoneTransformData)

/-- Pose.getBoneTransform: Map.get by bone name. -/
def Pose.getBoneTransform (p : Pose) (n : String) : Option BoneTransformData :=
  List.lookup n p

/-- The five channels of a partial bone transform. -/
inductive Channel : Type where
  | rotation
  | x
  | y
  | scaleX
  | scaleY
deriving DecidableEq

/-- Channel projection out of a BoneTransformData. -/
def chanGet (tr : BoneTransformData) : Channel → Option ℚ
  | .rotation => tr.rotation
  | .x => tr.x
  | .y => tr.y
  | .scaleX => tr.scaleX
  | .scaleY => tr.scaleY

/-- Neutral default of each channel used by Pose.lerp when a channel is
absent from one operand: rotation, x, y default to 0; scaleX, scaleY to 1. -/
def chanDefault : Channel → ℚ
  | .rotation => 0
  | .x => 0
  | .y => 0
  | .scaleX => 1
  | .scaleY => 1

/-- Presence of a channel of a named bone in a pose. -/
def chanPresent (p : Pose) (n : String) (c : Channel) : Prop :=
  (chanGet ((Pose.getBoneTransform p n).getD emptyBTD) c).isSome = true

instance (p : Pose) (n : String) (c : Channel) : Decidable (chanPresent p n c) := by
  unfold chanPresent; infer_instance

/-- Effective value of a channel of a named bone in a pose: the stored value
when present, the channel's neutral default when absent. -/
def poseChanVal (p : Pose) (n : String) (c : Channel) : ℚ :=
  ((chanGet ((Pose.getBoneTransform p n).getD emptyBTD) c).getD (chanDefault c))

/-- Per-bone body of Pose.lerp: each channel is interpolated when present in
either operand (absent values read as the channel's neutral default), omitted
when absent from both; rotation uses lerpAngle, the rest lerpValue. -/
def lerpBTD (fr tg : BoneTransformData) (t : ℚ) : BoneTransformData :=
  { rotation :=
      if fr.rotation.isSome || tg.rotation.isSome then
        some (lerpAngle (fr.rotation.getD 0) (tg.rotation.getD 0) t)
      else none
    x :=
      if fr.x.isSome || tg.x.isSome then
        some (lerpValue (fr.x.getD 0) (tg.x.getD 0) t)
      else none
    y :=
      if fr.y.isSome || tg.y.isSome then
        some (lerpValue (fr.y.getD 0) (tg.y.getD 0) t)
      else none
    scaleX :=
      if fr.scaleX.isSome || tg.scaleX.isSome then
        some (lerpValue (fr.scaleX.getD 1) (tg.scaleX.getD 1) t)
      else none
    scaleY :=
      if fr.scaleY.isSome || tg.scaleY.isSome then
        some (lerpValue (fr.scaleY.getD 1) (tg.scaleY.getD 1) t)
      else none }

/-- Iteration order of new Set([...a.keys(), ...b.keys()]): the keys of a
followed by the keys of b not already in a (both key lists are duplicate-free
in the source, being Map key lists). -/
def unionKeys (a b : List String) : List String :=
  a ++ b.filter (fun k => !a.contains k)

/-- Per-name body of Pose.lerp: interpolate the two partial transforms of
one bone (absent entries read as {}); an interpolated entry with no channel
at all is not stored in the result. -/
def lerpEntry (A B : Pose) (t : ℚ) (n : String) : Option BoneTransformData :=
  let i := lerpBTD ((Pose.getBoneTransform A n).getD emptyBTD)
      ((Pose.getBoneTransform B n).getD emptyBTD) t
  if i = emptyBTD then none else some i

/-- Pose.lerp: one interpolated entry for every bone name in either pose. -/
def Pose.lerp (A B : Pose) (t : ℚ) : Pose :=
  (unionKeys (A.map Prod.fst) (B.map Prod.fst)).filterMap fun n =>
    (lerpEntry A B t n).map fun i => (n, i)

/-- Per-bone body of Pose.difference: rotation, x and y subtract the same
channel of the source pose (defaulting to 0) when present in the target
entry; the code never writes scaleX or scaleY into the result. -/
def diffEntry (pFrom : Pose) (n : String) (toT : BoneTransformData) : BoneTransformData :=
  { rotation := toT.rotation.map
      (fun v => v - (((Pose.getBoneTransform pFrom n).getD emptyBTD).rotation.getD 0))
    x := toT.x.map
      (fun v => v - (((Pose.getBoneTransform pFrom n).getD emptyBTD).x.getD 0))
    y := toT.y.map
      (fun v => v - (((Pose.getBoneTransform pFrom n).getD emptyBTD).y.getD 0))
    scaleX := none
    scaleY := none }

/-- Pose.difference: one entry per bone of the target pose. -/
def Pose.difference (pFrom pTo : Pose) : Pose :=
  pTo.map fun e => (e.1, diffEntry pFrom e.1 e.2)

/-! ## Pose application onto a skeleton (Pose.applyTo)

For this claim only the live local transforms and the immutable bind
transforms of the bones matter; updateWorldTransform writes the world fields
only and never a local transform, so the skeleton is embedded here as its
name-to-bone map restricted to those two transforms, over the rationals.
-/

/-- Transform record of Transform.ts (defaults (0,0,0,1,1)), over ℚ for the
trigonometry-free pose-application claims. -/
structure TransformQ where
  x : ℚ
  y : ℚ
  rotation : ℚ
  scaleX : ℚ
  scaleY : ℚ
deriving DecidableEq

/-- A bone as Pose.applyTo sees it: its immutable bindTransform and its
mutable localTransform. -/
structure BoneState where
  bindTransform : TransformQ
  localTransform : TransformQ
deriving DecidableEq

/-- The skeleton's name-to-bone map, as an association list. -/
abbrev SkeletonQ := List (String × BoneState)

/-- Body of Pose.applyTo for one bone: each channel present in the pose entry
is written (setRotation re-adds the bind rotation; x and y are written as
bind offset plus pose value; the scales are written directly), absent
channels are left alone. -/
def applyChannels (bs : BoneState) (tr : BoneTransformData) : BoneState :=
  let l0 := bs.localTransform
  let l1 := match tr.rotation with
    | some r => { l0 with rotation := bs.bindTransform.rotation + r }
    | none => l0
  let l2 := match tr.x with
    | some vx => { l1 with x := bs.bindTransform.x + vx }
    | none => l1
  let l3 := match tr.y with
    | some vy => { l2 with y := bs.bindTransform.y + vy }
    | none => l2
  let l4 := match tr.scaleX with
    | some sx => { l3 with scaleX := sx }
    | none => l3
  let l5 := match tr.scaleY with
    | some sy => { l4 with scaleY := sy }
    | none => l4
  { bs with localTransform := l5 }

/-- One iteration of the Pose.applyTo loop: the bone whose name matches the
pose entry receives the entry's present channels (a name that resolves to no
bone leaves the skeleton unchanged). -/
def applyEntry (sk : SkeletonQ) (e : String × BoneTransformData) : SkeletonQ :=
  sk.map fun be => if be.1 = e.1 then (be.1, applyChannels be.2 e.2) else be

/-- Pose.applyTo: the loop over the pose's entries.  The trailing
skeleton.updateTransforms() call recomputes world fields only, never a local
transform, and is embedded separately with the world-transform math. -/
def Pose.applyTo (p : Pose) (sk : SkeletonQ) : SkeletonQ :=
  p.foldl applyEntry sk

/-! ## Actions and keyframes (Action.ts) -/

/-- KeyframeData of Action.ts: normalized time, pose name, optional easing
name. -/
structure KeyframeData where
  time : ℚ
  pose : String
  easing : Option String
deriving DecidableEq

/-- Action of Action.ts (the fields getPoseAtTime and getDuration read). -/
structure Action where
  name : String
  duration : ℚ
  keyframes : List KeyframeData
  category : String
deriving DecidableEq

/-- A pose library, as its name lookup function (PoseLibrary.get). -/
abbrev PoseLibrary := String → Option Pose

/-- The bracketing-pair scan of Action.getPoseAtTime: the first index i with
keyframes[i].time <= t <= keyframes[i+1].time, returning that keyframe
pair. -/
def findBracket (t : ℚ) : List KeyframeData → Option (KeyframeData × KeyframeData)
  | a :: b :: rest =>
    if a.time ≤ t ∧ t ≤ b.time then some (a, b) else findBracket t (b :: rest)
  | _ => none

/-- Action.getPoseAtTime.  When no keyframe pair brackets t, the code reads
keyframes[0] (when t <= 0) or keyframes[length - 1] (otherwise) without a
bounds check; on an empty keyframe list that element is undefined and the
following .pose read throws, embedded as the error result. -/
def Action.getPoseAtTime (act : Action) (t : ℚ) (lib : PoseLibrary) :
    Except Unit (Option Pose) :=
  match findBracket t act.keyframes with
  | some (fromKf, toKf) =>
    match lib fromKf.pose, lib toKf.pose with
    | some fromPose, some toPose =>
      .ok (some (Pose.lerp fromPose toPose ((t - fromKf.time) / (toKf.time - fromKf.time))))
    | some _, none => .ok none
    | none, _ => .ok none
  | none =>
    match (if t ≤ 0 then act.keyframes[0]? else act.keyframes[act.keyframes.length - 1]?) with
    | some kf => .ok (lib kf.pose)
    | none => .error ()

/-! ## Beats and sequences (Beat.ts / Sequence.ts) -/

/-- Beat of Beat.ts: absolute time, actor name, action name, optional target
name. -/
structure Beat where
  time : ℚ
  actor : String
  action : String
  target : Option String
deriving DecidableEq

/-- Comparator of Sequence.addBeat: (a, b) => a.time - b.time, as the induced
ordering. -/
def beatLE (a b : Beat) : Prop := a.time ≤ b.time

instance : DecidableRel beatLE :=
  fun a b => inferInstanceAs (Decidable (a.time ≤ b.time))

instance : IsTotal Beat beatLE := ⟨fun a b => le_total a.time b.time⟩

instance : IsTrans Beat beatLE := ⟨fun _ _ _ hab hbc => le_trans hab hbc⟩

/-- Sequence.addBeat: push the beat, then re-sort the list by time.
Array.prototype.sort is specified stable, and a stable sort of a list by a
total preorder is unique, so it is embedded as the (stable) insertion
sort. -/
def Sequence.addBeat (beats : List Beat) (b : Beat) : List Beat :=
  List.insertionSort beatLE (beats ++ [b])

/-- An action library, as its name lookup function (ActionLibrary.get). -/
abbrev ActionLibrary := String → Option Action

/-- Sequence.getDuration: 0 on an empty beat list, else the running maximum,
started at 0, of beat.time + action.duration over the beats whose action name
resolves in the library. -/
def Sequence.getDuration (beats : List Beat) (lib : ActionLibrary) : ℚ :=
  if beats.isEmpty then 0
  else
    beats.foldl
      (fun maxEnd b =>
        match lib b.action with
        | some a => max maxEnd (b.time + a.duration)
        | none => maxEnd)
      0

/-- Contribution of one beat to the duration as the specification words it:
beat.time plus the resolved action's duration, 0 when the action name does
not resolve. -/
def beatContribution (lib : ActionLibrary) (b : Beat) : ℚ :=
  match lib b.action with
  | some a => b.time + a.duration
  | none => 0

/-! ## Bone hierarchy world transforms (Bone.ts / Skeleton.ts)

After Skeleton.loadFromData the bones form parent-to-children trees with the
parentless bones as roots (the specification treats cyclic parent data as a
caller error, so the hierarchy is embedded directly as trees).  A bone node
carries its mutable localTransform; name, length and joint references never
enter updateWorldTransform and are omitted.  World math is over ℝ since it
uses cosine and sine of the parent rotation converted to radians.
-/

/-- Transform record of Transform.ts over ℝ, as carried by each bone. -/
structure Transform where
  x : ℝ
  y : ℝ
  rotation : ℝ
  scaleX : ℝ
  scaleY : ℝ

/-- The computed world fields of a bone: worldX, worldY, worldRotation. -/
structure WorldTransform where
  worldX : ℝ
  worldY : ℝ
  worldRotation : ℝ

/-- A bone with its localTransform and its children list. -/
inductive Bone : Type where
  | mk : Transform → List Bone → Bone

/-- The localTransform field of a bone. -/
def Bone.localTransform : Bone → Transform
  | .mk lt _ => lt

/-- The children list of a bone. -/
def Bone.children : Bone → List Bone
  | .mk _ cs => cs

/-- Degrees to radians: rotation * Math.PI / 180. -/
noncomputable def degRad (deg : ℝ) : ℝ := deg * Real.pi / 180

/-- The with-parent branch of Bone.updateWorldTransform: the local offset is
rotated by the parent world rotation and added to the parent world position;
world rotation is the sum of the rotations. -/
noncomputable def childWorld (p : WorldTransform) (lt : Transform) : WorldTransform :=
  { worldX := p.worldX +
      (lt.x * Real.cos (degRad p.worldRotation) - lt.y * Real.sin (degRad p.worldRotation))
    worldY := p.worldY +
      (lt.x * Real.sin (degRad p.worldRotation) + lt.y * Real.cos (degRad p.worldRotation))
    worldRotation := p.worldRotation + lt.rotation }

/-- World transform of one bone given the parent's world transform when the
bone has a parent: the two branches of Bone.updateWorldTransform. -/
noncomputable def nodeWorld (pw : Option WorldTransform) (lt : Transform) : WorldTransform :=
  match pw with
  | some p => childWorld p lt
  | none => { worldX := lt.x, worldY := lt.y, worldRotation := lt.rotation }

/-- The tree of computed world transforms produced by one update pass. -/
inductive WorldTree : Type where
  | mk : WorldTransform → List WorldTree → WorldTree

/-- The world transform at the root of a world tree. -/
def WorldTree.world : WorldTree → WorldTransform
  | .mk w _ => w

/-- The children of a world tree node. -/
def WorldTree.children : WorldTree → List WorldTree
  | .mk _ cs => cs

mutual
/-- Bone.updateWorldTransform: compute this bone's world transform from the
parent's (or copy the local transform verbatim at a root), then recurse into
the children with this bone as parent. -/
noncomputable def Bone.updateWorldTransform (pw : Option WorldTransform) : Bone → WorldTree
  | .mk lt cs => .mk (nodeWorld pw lt) (Bone.updateChildren (nodeWorld pw lt) cs)

/-- The for-loop over this.children at the end of Bone.updateWorldTransform. -/
noncomputable def Bone.updateChildren (w : WorldTransform) : List Bone → List WorldTree
  | [] => []
  | c :: cs => Bone.updateWorldTransform (some w) c :: Bone.updateChildren w cs
end

/-- Skeleton.updateTransforms: update every root bone with no parent. -/
noncomputable def Skeleton.updateTransforms (rootBones : List Bone) : List WorldTree :=
  rootBones.map (Bone.updateWorldTransform none)

/-- The bone reached from a root by a path of child indices. -/
def subtreeAt : List ℕ → Bone → Option Bone
  | [], b => some b
  | i :: p, b =>
    match b.children[i]? with
    | some c => subtreeAt p c
    | none => none

/-- The computed world transform reached by a path of child indices. -/
def worldAt : List ℕ → WorldTree → Option WorldTransform
  | [], w => some w.world
  | i :: p, w =>
    match w.children[i]? with
    | some c => worldAt p c
    | none => none

/-- Replacement of the element at one index of a list, the rest unchanged. -/
def modifyAt (f : α → α) : ℕ → List α → List α
  | _, [] => []
  | 0, x :: xs => f x :: xs
  | i + 1, x :: xs => x :: modifyAt f i xs

/-- Adding an angle to a bone's local transform rotation. -/
def Bone.addLocalRotation (θ : ℝ) : Bone → Bone
  | .mk lt cs => .mk { lt with rotation := lt.rotation + θ } cs

/-- Adding an angle to the local rotation of the bone at a path. -/
def addRotationAt (θ : ℝ) : List ℕ → Bone → Bone
  | [], b => b.addLocalRotation θ
  | i :: p, b => .mk b.localTransform (modifyAt (addRotationAt θ p) i b.children)

/-- Rotation of a world transform by θ degrees about the point (ox, oy):
the position is rotated about that point, the rotation increased by θ. -/
noncomputable def rotateWorld (ox oy θ : ℝ) (w : WorldTransform) : WorldTransform :=
  { worldX := ox + ((w.worldX - ox) * Real.cos (degRad θ) - (w.worldY - oy) * Real.sin (degRad θ))
    worldY := oy + ((w.worldX - ox) * Real.sin (degRad θ) + (w.worldY - oy) * Real.cos (degRad θ))
    worldRotation := w.worldRotation + θ }

/-- The parent world transform passed to the bone at a path during an update
pass started with parent world pw (none at the path's root when pw is
none). -/
noncomputable def parentWorldAt (pw : Option WorldTransform) :
    List ℕ → Bone → Option (Option WorldTransform)
  | [], _ => some pw
  | i :: p, b =>
    match b.children[i]? with
    | some c => parentWorldAt (some (nodeWorld pw b.localTransform)) p c
    | none => none

/-! ## Lemmas about the angle normalization loops -/

theorem reduceHigh_step {d : ℚ} (h : 180 < d) : reduceHigh d = reduceHigh (d - 360) := by
  rw [reduceHigh]
  simp [h]

theorem reduceHigh_eq_self {d : ℚ} (h : d ≤ 180) : reduceHigh d = d := by
  rw [reduceHigh]
  simp [not_lt.mpr h]

theorem reduceLow_step {d : ℚ} (h : d < -180) : reduceLow d = reduceLow (d + 360) := by
  rw [reduceLow]
  simp [h]

theorem reduceLow_eq_self {d : ℚ} (h : -180 ≤ d) : reduceLow d = d := by
  rw [reduceLow]
  simp [not_lt.mpr h]

theorem reduceHigh_le (d : ℚ) : reduceHigh d ≤ 180 := by
  induction d using reduceHigh.induct with
  | case1 d h ih =>
    rw [reduceHigh_step h]
    exact ih
  | case2 d h =>
    rw [reduceHigh_eq_self (not_lt.mp h)]
    exact not_lt.mp h

theorem reduceLow_ge (d : ℚ) : -180 ≤ reduceLow d := by
  induction d using reduceLow.induct with
  | case1 d h ih =>
    rw [reduceLow_step h]
    exact ih
  | case2 d h =>
    rw [reduceLow_eq_self (not_lt.mp h)]
    exact not_lt.mp h

theorem reduceLow_le (d : ℚ) : d ≤ 180 → reduceLow d ≤ 180 := by
  induction d using reduceLow.induct with
  | case1 d h ih =>
    intro _
    rw [reduceLow_step h]
    exact ih (by linarith)
  | case2 d h =>
    intro hd
    rw [reduceLow_eq_self (not_lt.mp h)]
    exact hd

theorem reduceHigh_congr (d : ℚ) : ∃ k : ℤ, reduceHigh d = d + 360 * k := by
  induction d using reduceHigh.induct with
  | case1 d h ih =>
    obtain ⟨k, hk⟩ := ih
    refine ⟨k - 1, ?_⟩
    rw [reduceHigh_step h, hk]
    push_cast
    ring
  | case2 d h =>
    refine ⟨0, ?_⟩
    rw [reduceHigh_eq_self (not_lt.mp h)]
    norm_num

theorem reduceLow_congr (d : ℚ) : ∃ k : ℤ, reduceLow d = d + 360 * k := by
  induction d using reduceLow.induct with
  | case1 d h ih =>
    obtain ⟨k, hk⟩ := ih
    refine ⟨k + 1, ?_⟩
    rw [reduceLow_step h, hk]
    push_cast
    ring
  | case2 d h =>
    refine ⟨0, ?_⟩
    rw [reduceLow_eq_self (not_lt.mp h)]
    norm_num

/-- The normalized delta is congruent to the input modulo 360 and lands in
the closed interval [-180, 180]. -/
theorem normDelta_spec (d : ℚ) :
    (∃ k : ℤ, normDelta d = d + 360 * k) ∧ -180 ≤ normDelta d ∧ normDelta d ≤ 180 := by
  unfold normDelta
  obtain ⟨k1, hk1⟩ := reduceHigh_congr d
  obtain ⟨k2, hk2⟩ := reduceLow_congr (reduceHigh d)
  refine ⟨⟨k1 + k2, ?_⟩, reduceLow_ge _, reduceLow_le _ (reduceHigh_le d)⟩
  rw [hk2, hk1]
  push_cast
  ring

theorem normDelta_neg180 : normDelta (-180 : ℚ) = -180 := by
  unfold normDelta
  rw [reduceHigh_eq_self (by norm_num), reduceLow_eq_self (by norm_num)]

theorem normDelta_neg340 : normDelta (-340 : ℚ) = 20 := by
  unfold normDelta
  rw [reduceHigh_eq_self (by norm_num), reduceLow_step (by norm_num)]
  norm_num
  rw [reduceLow_eq_self (by norm_num)]

/-- C2, counterexample: at a = 0, b = -180, t = 1/2 the code returns -90,
while every delta congruent to b - a modulo 360 lying in the half-open
interval (-180, 180] (there is exactly one, namely 180) would give 90. -/
theorem c2_counterexample :
    lerpAngle 0 (-180) (1/2) = -90 ∧
    ∀ d : ℚ, (∃ k : ℤ, d = (-180 : ℚ) - 0 + 360 * k) → -180 < d → d ≤ 180 →
      (0 : ℚ) + d * (1/2) ≠ lerpAngle 0 (-180) (1/2) := by
  have heval : lerpAngle 0 (-180) (1/2) = -90 := by
    unfold lerpAngle
    norm_num [normDelta_neg180]
  refine ⟨heval, ?_⟩
  rintro d ⟨k, hk⟩ hlo hhi
  rw [heval]
  have hk1 : (0 : ℤ) < k := by
    have : (0 : ℚ) < 360 * (k : ℚ) := by
      rw [hk] at hlo
      linarith
    have : (0 : ℚ) < (k : ℚ) := by linarith
    exact_mod_cast this
  have hk2 : (k : ℤ) ≤ 1 := by
    have : 360 * (k : ℚ) ≤ 360 := by
      rw [hk] at hhi
      linarith
    have : (k : ℚ) ≤ 1 := by linarith
    exact_mod_cast this
  have hk3 : k = 1 := by omega
  subst hk3
  rw [hk]
  norm_num

/-- C2, amended: lerpAngle a b t equals a + d * t where d is b - a shifted by
a multiple of 360 into the closed interval [-180, 180] (a delta of exactly
-180 is kept as -180, not mapped to 180); in particular interpolating from
170 degrees to -170 degrees at t = 1/2 does yield 180 degrees. -/
theorem c2_lerp_angle_shortest_path :
    (∀ a b t : ℚ, ∃ d : ℚ, (∃ k : ℤ, d = b - a + 360 * k) ∧
      -180 ≤ d ∧ d ≤ 180 ∧ lerpAngle a b t = a + d * t) ∧
    lerpAngle 170 (-170) (1/2) = 180 := by
  constructor
  · intro a b t
    obtain ⟨⟨k, hk⟩, hge, hle⟩ := normDelta_spec (b - a)
    exact ⟨normDelta (b - a), ⟨k, hk⟩, hge, hle, rfl⟩
  · unfold lerpAngle
    have h : (-170 : ℚ) - 170 = -340 := by norm_num
    rw [h, normDelta_neg340]
    norm_num

/-! ## Lemmas about pose lookups -/

theorem chanGet_emptyBTD (c : Channel) : chanGet emptyBTD c = none := by
  cases c <;> rfl

theorem mem_keys_of_lookup {p : Pose} {n : String} {tr : BoneTransformData}
    (h : List.lookup n p = some tr) : n ∈ p.map Prod.fst := by
  induction p with
  | nil => simp [List.lookup] at h
  | cons e p ih =>
    obtain ⟨k, v⟩ := e
    rw [List.lookup_cons] at h
    by_cases hnk : n = k
    · simp [hnk]
    · simp [beq_eq_false_iff_ne.mpr hnk] at h
      simp [ih h]

theorem mem_keys_of_chanPresent {p : Pose} {n : String} {c : Channel}
    (h : chanPresent p n c) : n ∈ p.map Prod.fst := by
  unfold chanPresent at h
  cases hl : List.lookup n p with
  | none =>
    rw [Pose.getBoneTransform, hl] at h
    simp [chanGet_emptyBTD] at h
  | some tr => exact mem_keys_of_lookup hl

theorem mem_unionKeys {n : String} {a b : List String} :
    n ∈ unionKeys a b ↔ n ∈ a ∨ n ∈ b := by
  unfold unionKeys
  rw [List.mem_append]
  constructor
  · rintro (h | h)
    · exact Or.inl h
    · exact Or.inr (List.mem_of_mem_filter h)
  · rintro (h | h)
    · exact Or.inl h
    · by_cases hna : n ∈ a
      · exact Or.inl hna
      · exact Or.inr (List.mem_filter.mpr ⟨h, by simp [hna]⟩)

theorem nodup_unionKeys {a b : List String} (ha : a.Nodup) (hb : b.Nodup) :
    (unionKeys a b).Nodup := by
  unfold unionKeys
  rw [List.nodup_append]
  refine ⟨ha, hb.filter _, ?_⟩
  intro x hxa hxf
  have hx := List.of_mem_filter hxf
  simp at hx
  exact hx hxa

theorem lookup_filterMap_keyed (g : String → Option BoneTransformData) (n : String) :
    ∀ ns : List String, ns.Nodup →
      List.lookup n (ns.filterMap fun m => (g m).map fun i => (m, i)) =
        if n ∈ ns then g n else none := by
  intro ns
  induction ns with
  | nil => simp
  | cons m ns ih =>
    intro hnd
    have hns : ns.Nodup := (List.nodup_cons.mp hnd).2
    by_cases hnm : n = m
    · subst hnm
      have hnotin : n ∉ ns := (List.nodup_cons.mp hnd).1
      cases hg : g n with
      | none =>
        simp only [List.filterMap_cons, hg, Option.map_none']
        rw [ih hns]
        simp [hnotin, hg]
      | some i =>
        simp only [List.filterMap_cons, hg, Option.map_some']
        simp [List.lookup_cons, hg]
    · cases hg : g m with
      | none =>
        simp only [List.filterMap_cons, hg, Option.map_none']
        rw [ih hns]
        simp [hnm]
      | some i =>
        simp only [List.filterMap_cons, hg, Option.map_some', List.lookup_cons,
          beq_eq_false_iff_ne.mpr hnm]
        rw [ih hns]
        simp [hnm]

theorem getBoneTransform_lerp (A B : Pose) (t : ℚ) (n : String)
    (hA : (A.map Prod.fst).Nodup) (hB : (B.map Prod.fst).Nodup) :
    Pose.getBoneTransform (Pose.lerp A B t) n =
      if n ∈ A.map Prod.fst ∨ n ∈ B.map Prod.fst then lerpEntry A B t n else none := by
  unfold Pose.lerp Pose.getBoneTransform
  rw [lookup_filterMap_keyed (lerpEntry A B t) n _ (nodup_unionKeys hA hB)]
  by_cases h : n ∈ A.map Prod.fst ∨ n ∈ B.map Prod.fst
  · rw [if_pos (mem_unionKeys.mpr h), if_pos h]
  · rw [if_neg (fun hc => h (mem_unionKeys.mp hc)), if_neg h]

theorem lookup_map_keyed (g : String → BoneTransformData → BoneTransformData) (n : String) :
    ∀ l : Pose, List.lookup n (l.map fun e => (e.1, g e.1 e.2)) = (List.lookup n l).map (g n) := by
  intro l
  induction l with
  | nil => simp
  | cons e l ih =>
    obtain ⟨k, v⟩ := e
    rw [List.map_cons, List.lookup_cons, List.lookup_cons]
    by_cases hnk : n = k
    · subst hnk
      simp
    · simp only [beq_eq_false_iff_ne.mpr hnk, if_false]
      exact ih

/-- Channel-wise reading of the per-bone body of Pose.lerp. -/
theorem lerpBTD_chanGet (fr tg : BoneTransformData) (t : ℚ) (c : Channel) :
    chanGet (lerpBTD fr tg t) c =
      if (chanGet fr c).isSome || (chanGet tg c).isSome then
        some (if c = Channel.rotation
          then lerpAngle ((chanGet fr c).getD (chanDefault c))
            ((chanGet tg c).getD (chanDefault c)) t
          else lerpValue ((chanGet fr c).getD (chanDefault c))
            ((chanGet tg c).getD (chanDefault c)) t)
      else none := by
  cases c <;> simp [lerpBTD, chanGet, chanDefault]

theorem lerpValue_zero (a b : ℚ) : lerpValue a b 0 = a := by
  unfold lerpValue
  ring

theorem lerpValue_one (a b : ℚ) : lerpValue a b 1 = b := by
  unfold lerpValue
  ring

theorem lerpAngle_zero (a b : ℚ) : lerpAngle a b 0 = a := by
  unfold lerpAngle
  ring

theorem lerpAngle_one (a b : ℚ) : ∃ k : ℤ, lerpAngle a b 1 = b + 360 * k := by
  obtain ⟨⟨k, hk⟩, -, -⟩ := normDelta_spec (b - a)
  refine ⟨k, ?_⟩
  unfold lerpAngle
  rw [hk]
  ring

theorem normDelta_350 : normDelta (350 : ℚ) = -10 := by
  unfold normDelta
  rw [reduceHigh_step (by norm_num)]
  norm_num
  rw [reduceHigh_eq_self (by norm_num), reduceLow_eq_self (by norm_num)]

/-- C4: the lerp boundary property, proved in the amended form.  With absent
channels read as their neutral defaults, lerp at t = 0 agrees with the first
pose on every channel present in either pose; lerp at t = 1 agrees with the
second pose exactly on x, y, scaleX and scaleY, while its rotation agrees
with the second pose only up to an integer multiple of 360 (the wraparound
shift applied by lerpAngle). -/
theorem c4_lerp_boundary (A B : Pose)
    (hA : (A.map Prod.fst).Nodup) (hB : (B.map Prod.fst).Nodup)
    (n : String) (c : Channel)
    (hpres : chanPresent A n c ∨ chanPresent B n c) :
    chanPresent (Pose.lerp A B 0) n c ∧
    chanPresent (Pose.lerp A B 1) n c ∧
    poseChanVal (Pose.lerp A B 0) n c = poseChanVal A n c ∧
    (c ≠ Channel.rotation → poseChanVal (Pose.lerp A B 1) n c = poseChanVal B n c) ∧
    (∃ k : ℤ, poseChanVal (Pose.lerp A B 1) n Channel.rotation =
      poseChanVal B n Channel.rotation + 360 * k) := by
  have hmem : n ∈ A.map Prod.fst ∨ n ∈ B.map Prod.fst :=
    hpres.imp mem_keys_of_chanPresent mem_keys_of_chanPresent
  have hcond : ((chanGet ((Pose.getBoneTransform A n).getD emptyBTD) c).isSome
      || (chanGet ((Pose.getBoneTransform B n).getD emptyBTD) c).isSome) = true := by
    unfold chanPresent at hpres
    rcases hpres with h | h <;> simp [h]
  have hne : ∀ t : ℚ, lerpBTD ((Pose.getBoneTransform A n).getD emptyBTD)
      ((Pose.getBoneTransform B n).getD emptyBTD) t ≠ emptyBTD := by
    intro t heq
    have h1 := lerpBTD_chanGet ((Pose.getBoneTransform A n).getD emptyBTD)
      ((Pose.getBoneTransform B n).getD emptyBTD) t c
    rw [heq, chanGet_emptyBTD, if_pos hcond] at h1
    simp at h1
  have hlk : ∀ t : ℚ, Pose.getBoneTransform (Pose.lerp A B t) n =
      some (lerpBTD ((Pose.getBoneTransform A n).getD emptyBTD)
        ((Pose.getBoneTransform B n).getD emptyBTD) t) := by
    intro t
    rw [getBoneTransform_lerp A B t n hA hB, if_pos hmem]
    unfold lerpEntry
    simp [hne t]
  have hchan : ∀ t : ℚ, chanPresent (Pose.lerp A B t) n c := by
    intro t
    unfold chanPresent
    rw [hlk t]
    simp only [Option.getD_some]
    rw [lerpBTD_chanGet, if_pos hcond]
    simp
  have hval : ∀ t : ℚ, poseChanVal (Pose.lerp A B t) n c =
      (if c = Channel.rotation
        then lerpAngle (poseChanVal A n c) (poseChanVal B n c) t
        else lerpValue (poseChanVal A n c) (poseChanVal B n c) t) := by
    intro t
    unfold poseChanVal
    rw [hlk t]
    simp only [Option.getD_some]
    rw [lerpBTD_chanGet, if_pos hcond]
    simp [poseChanVal]
  refine ⟨hchan 0, hchan 1, ?_, ?_, ?_⟩
  · rw [hval 0]
    by_cases hc : c = Channel.rotation
    · rw [if_pos hc, lerpAngle_zero]
    · rw [if_neg hc, lerpValue_zero]
  · intro hc
    rw [hval 1, if_neg hc, lerpValue_one]
  · by_cases hrc : ((chanGet ((Pose.getBoneTransform A n).getD emptyBTD)
        Channel.rotation).isSome
        || (chanGet ((Pose.getBoneTransform B n).getD emptyBTD)
        Channel.rotation).isSome) = true
    · have h1 : poseChanVal (Pose.lerp A B 1) n Channel.rotation =
          lerpAngle (poseChanVal A n Channel.rotation)
            (poseChanVal B n Channel.rotation) 1 := by
        unfold poseChanVal
        rw [hlk 1]
        simp only [Option.getD_some]
        rw [lerpBTD_chanGet, if_pos hrc]
        simp [poseChanVal]
      rw [h1]
      exact lerpAngle_one _ _
    · refine ⟨0, ?_⟩
      have h1 : poseChanVal (Pose.lerp A B 1) n Channel.rotation = 0 := by
        unfold poseChanVal
        rw [hlk 1]
        simp only [Option.getD_some]
        rw [lerpBTD_chanGet, if_neg hrc]
        rfl
      have h2 : poseChanVal B n Channel.rotation = 0 := by
        unfold poseChanVal
        simp only [Bool.or_eq_true, not_or] at hrc
        rcases hrc with ⟨-, h⟩
        rw [Option.not_isSome_iff_eq_none] at h
        rw [h]
        rfl
      rw [h1, h2]
      norm_num

/-- C4, witness: the boundary theorem applied to the one-bone pose with x = 3
against the empty pose on channel x. -/
theorem c4_witness :
    chanPresent (Pose.lerp [("arm", ⟨none, some 3, none, none, none⟩)] [] 0)
      "arm" Channel.x ∧
    chanPresent (Pose.lerp [("arm", ⟨none, some 3, none, none, none⟩)] [] 1)
      "arm" Channel.x ∧
    poseChanVal (Pose.lerp [("arm", ⟨none, some 3, none, none, none⟩)] [] 0)
      "arm" Channel.x =
      poseChanVal [("arm", ⟨none, some 3, none, none, none⟩)] "arm" Channel.x ∧
    (Channel.x ≠ Channel.rotation →
      poseChanVal (Pose.lerp [("arm", ⟨none, some 3, none, none, none⟩)] [] 1)
        "arm" Channel.x = poseChanVal ([] : Pose) "arm" Channel.x) ∧
    (∃ k : ℤ, poseChanVal (Pose.lerp [("arm", ⟨none, some 3, none, none, none⟩)] [] 1)
        "arm" Channel.rotation =
      poseChanVal ([] : Pose) "arm" Channel.rotation + 360 * k) :=
  c4_lerp_boundary [("arm", ⟨none, some 3, none, none, none⟩)] []
    (by decide) (by decide) "arm" Channel.x (Or.inl (by decide))

/-- C4, counterexample: rotation is present in pose B with value 350, yet
lerp at t = 1 stores rotation -10 for that bone, which differs from 350 (the
wraparound shifts the endpoint by -360). -/
theorem c4_counterexample :
    chanPresent [("arm", ⟨some 350, none, none, none, none⟩)] "arm" Channel.rotation ∧
    Pose.getBoneTransform (Pose.lerp [("arm", ⟨some 0, none, none, none, none⟩)]
        [("arm", ⟨some 350, none, none, none, none⟩)] 1) "arm" =
      some ⟨some (-10), none, none, none, none⟩ ∧
    poseChanVal (Pose.lerp [("arm", ⟨some 0, none, none, none, none⟩)]
        [("arm", ⟨some 350, none, none, none, none⟩)] 1) "arm" Channel.rotation = -10 ∧
    poseChanVal [("arm", ⟨some 350, none, none, none, none⟩)] "arm" Channel.rotation = 350 ∧
    (-10 : ℚ) ≠ 350 := by
  have hang : lerpAngle 0 350 1 = -10 := by
    unfold lerpAngle
    norm_num [normDelta_350]
  have hg : Pose.getBoneTransform (Pose.lerp [("arm", ⟨some 0, none, none, none, none⟩)]
      [("arm", ⟨some 350, none, none, none, none⟩)] 1) "arm" =
      some ⟨some (-10), none, none, none, none⟩ := by
    rw [getBoneTransform_lerp _ _ _ _ (by simp) (by simp), if_pos (by simp)]
    unfold lerpEntry lerpBTD Pose.getBoneTransform
    simp [emptyBTD, hang]
  refine ⟨by decide, hg, ?_, by decide, by norm_num⟩
  unfold poseChanVal
  rw [hg]
  rfl

/-- C5, counterexample: the entry for a bone whose target transform carries
only scaleX = 2 comes out of Pose.difference with no channel at all — the
scaleX channel present in the target is not emitted, contradicting the
claimed treatment of every channel including the scales. -/
theorem c5_counterexample :
    Pose.getBoneTransform [("arm", ⟨none, none, none, some 2, none⟩)] "arm" =
      some ⟨none, none, none, some 2, none⟩ ∧
    Pose.getBoneTransform
        (Pose.difference [] [("arm", ⟨none, none, none, some 2, none⟩)]) "arm" =
      some emptyBTD :=
  ⟨rfl, rfl⟩

/-- C5: the difference pose, proved in the amended form.  For every bone
present in the target pose the result carries exactly one entry: rotation, x
and y hold target minus source (source defaulting to 0 when absent), while
scaleX and scaleY are never emitted even when present in the target; bones
absent from the target produce no entry even when present in the source. -/
theorem c5_difference (pFrom pTo : Pose) (n : String) :
    (Pose.getBoneTransform pTo n = none →
      Pose.getBoneTransform (Pose.difference pFrom pTo) n = none) ∧
    (∀ toT, Pose.getBoneTransform pTo n = some toT →
      ∃ d, Pose.getBoneTransform (Pose.difference pFrom pTo) n = some d ∧
        d.rotation = toT.rotation.map (fun v => v - poseChanVal pFrom n Channel.rotation) ∧
        d.x = toT.x.map (fun v => v - poseChanVal pFrom n Channel.x) ∧
        d.y = toT.y.map (fun v => v - poseChanVal pFrom n Channel.y) ∧
        d.scaleX = none ∧ d.scaleY = none) := by
  have hl : Pose.getBoneTransform (Pose.difference pFrom pTo) n =
      (Pose.getBoneTransform pTo n).map (diffEntry pFrom n) := by
    unfold Pose.difference Pose.getBoneTransform
    exact lookup_map_keyed (diffEntry pFrom) n pTo
  constructor
  · intro h
    rw [hl, h, Option.map_none']
  · intro toT h
    refine ⟨diffEntry pFrom n toT, ?_, rfl, rfl, rfl, rfl, rfl⟩
    rw [hl, h, Option.map_some']

/-! ## Lemmas about pose application -/

theorem applyTo_cons (e : String × BoneTransformData) (p : Pose) (sk : SkeletonQ) :
    Pose.applyTo (e :: p) sk = Pose.applyTo p (applyEntry sk e) := rfl

theorem lookup_applyEntry (sk : SkeletonQ) (en : String) (ed : BoneTransformData)
    (m : String) :
    List.lookup m (applyEntry sk (en, ed)) =
      if en = m then (List.lookup m sk).map (fun bs => applyChannels bs ed)
      else List.lookup m sk := by
  induction sk with
  | nil => simp [applyEntry]
  | cons be sk ih =>
    obtain ⟨k, v⟩ := be
    simp only [applyEntry, List.map_cons] at ih ⊢
    by_cases hke : k = en
    · subst hke
      have hhead : ((k, v).1 = k) = True := by simp
      simp only [hhead, if_true]
      by_cases hmk : m = k
      · subst hmk
        simp [List.lookup_cons, beq_self_eq_true]
      · have hne : (m == k) = false := beq_eq_false_iff_ne.mpr hmk
        simp only [List.lookup_cons, hne]
        rw [ih]
    · have hif : ((k, v).1 = en) = False := by
        simp [hke]
      simp only [hif, if_false]
      by_cases hmk : m = k
      · subst hmk
        have hen : (en = m) = False := eq_false (fun hc => hke hc.symm)
        simp [List.lookup_cons, beq_self_eq_true, hen]
      · have hne : (m == k) = false := beq_eq_false_iff_ne.mpr hmk
        simp only [List.lookup_cons, hne]
        exact ih

theorem lookup_applyTo_notin (p : Pose) (m : String) :
    ∀ sk : SkeletonQ, (∀ e ∈ p, e.1 ≠ m) →
      List.lookup m (Pose.applyTo p sk) = List.lookup m sk := by
  induction p with
  | nil =>
    intro sk _
    rfl
  | cons e p ih =>
    intro sk hnot
    obtain ⟨en, ed⟩ := e
    rw [applyTo_cons]
    rw [ih (applyEntry sk (en, ed)) (fun x hx => hnot x (List.mem_cons_of_mem _ hx))]
    rw [lookup_applyEntry, if_neg (hnot (en, ed) (List.mem_cons_self _ p))]

theorem lookup_applyTo_entry (p : Pose) (m : String) :
    ∀ sk : SkeletonQ, (p.map Prod.fst).Nodup →
      ∀ tr, Pose.getBoneTransform p m = some tr →
        List.lookup m (Pose.applyTo p sk) =
          (List.lookup m sk).map (fun bs => applyChannels bs tr) := by
  induction p with
  | nil =>
    intro sk _ tr htr
    simp [Pose.getBoneTransform] at htr
  | cons e p ih =>
    intro sk hnd tr htr
    obtain ⟨k, v⟩ := e
    have hnd2 : (p.map Prod.fst).Nodup := (List.nodup_cons.mp (by simpa using hnd)).2
    have hk : k ∉ p.map Prod.fst := (List.nodup_cons.mp (by simpa using hnd)).1
    rw [applyTo_cons]
    by_cases hkm : k = m
    · subst hkm
      have htr2 : tr = v := by
        unfold Pose.getBoneTransform at htr
        rw [List.lookup_cons] at htr
        simp at htr
        exact htr.symm
      subst htr2
      have hnot : ∀ x ∈ p, x.1 ≠ k := by
        intro x hx hc
        exact hk (hc ▸ List.mem_map_of_mem Prod.fst hx)
      rw [lookup_applyTo_notin p k (applyEntry sk (k, tr)) hnot]
      rw [lookup_applyEntry, if_pos rfl]
    · have htr2 : Pose.getBoneTransform p m = some tr := by
        unfold Pose.getBoneTransform at htr ⊢
        rw [List.lookup_cons] at htr
        have hne : (m == k) = false := beq_eq_false_iff_ne.mpr (fun hc => hkm hc.symm)
        simpa [hne] using htr
      rw [ih (applyEntry sk (k, v)) hnd2 tr htr2]
      rw [lookup_applyEntry, if_neg hkm]

/-- Field-wise reading of the per-bone body of Pose.applyTo: each channel
present overwrites its field (setRotation adds the bind rotation, x and y add
the bind offset, the scales are written directly) and each absent channel
leaves its field untouched; the bind transform is never written. -/
theorem applyChannels_fields (bs : BoneState) (tr : BoneTransformData) :
    (applyChannels bs tr).bindTransform = bs.bindTransform ∧
    (applyChannels bs tr).localTransform.rotation =
      (match tr.rotation with
        | some r => bs.bindTransform.rotation + r
        | none => bs.localTransform.rotation) ∧
    (applyChannels bs tr).localTransform.x =
      (match tr.x with
        | some vx => bs.bindTransform.x + vx
        | none => bs.localTransform.x) ∧
    (applyChannels bs tr).localTransform.y =
      (match tr.y with
        | some vy => bs.bindTransform.y + vy
        | none => bs.localTransform.y) ∧
    (applyChannels bs tr).localTransform.scaleX =
      (match tr.scaleX with
        | some sx => sx
        | none => bs.localTransform.scaleX) ∧
    (applyChannels bs tr).localTransform.scaleY =
      (match tr.scaleY with
        | some sy => sy
        | none => bs.localTransform.scaleY) := by
  obtain ⟨rot, xx, yy, sx, sy⟩ := tr
  cases rot <;> cases xx <;> cases yy <;> cases sx <;> cases sy <;>
    exact ⟨rfl, rfl, rfl, rfl, rfl, rfl⟩

/-- C9: Pose.applyTo modifies only the channels explicitly present in the
pose.  A bone not named in the pose keeps its entry unchanged, and for a
named bone each channel absent from the pose entry leaves the corresponding
local-transform field (and the whole bind transform) unchanged. -/
theorem c9_applyTo_frame (p : Pose) (sk : SkeletonQ) (m : String) :
    ((∀ e ∈ p, e.1 ≠ m) → List.lookup m (Pose.applyTo p sk) = List.lookup m sk) ∧
    ((p.map Prod.fst).Nodup → ∀ tr bs, Pose.getBoneTransform p m = some tr →
      List.lookup m sk = some bs →
      ∃ bs', List.lookup m (Pose.applyTo p sk) = some bs' ∧
        bs'.bindTransform = bs.bindTransform ∧
        (tr.rotation = none → bs'.localTransform.rotation = bs.localTransform.rotation) ∧
        (tr.x = none → bs'.localTransform.x = bs.localTransform.x) ∧
        (tr.y = none → bs'.localTransform.y = bs.localTransform.y) ∧
        (tr.scaleX = none → bs'.localTransform.scaleX = bs.localTransform.scaleX) ∧
        (tr.scaleY = none → bs'.localTransform.scaleY = bs.localTransform.scaleY)) := by
  constructor
  · exact lookup_applyTo_notin p m sk
  · intro hnd tr bs htr hbs
    refine ⟨applyChannels bs tr, ?_, ?_, ?_, ?_, ?_, ?_, ?_⟩
    · rw [lookup_applyTo_entry p m sk hnd tr htr, hbs, Option.map_some']
    · exact (applyChannels_fields bs tr).1
    · intro h
      have := (applyChannels_fields bs tr).2.1
      rw [h] at this
      exact this
    · intro h
      have := (applyChannels_fields bs tr).2.2.1
      rw [h] at this
      exact this
    · intro h
      have := (applyChannels_fields bs tr).2.2.2.1
      rw [h] at this
      exact this
    · intro h
      have := (applyChannels_fields bs tr).2.2.2.2.1
      rw [h] at this
      exact this
    · intro h
      have := (applyChannels_fields bs tr).2.2.2.2.2
      rw [h] at this
      exact this

/-! ## Lemmas about the keyframe bracket scan -/

theorem findBracket_none_of_lt (t : ℚ) :
    ∀ kfs : List KeyframeData, (∀ k ∈ kfs, t < k.time) → findBracket t kfs = none := by
  intro kfs
  induction kfs with
  | nil => intro _; rfl
  | cons a kfs ih =>
    intro hall
    cases kfs with
    | nil => rfl
    | cons b rest =>
      unfold findBracket
      rw [if_neg]
      · exact ih (fun k hk => hall k (List.mem_cons_of_mem a hk))
      · rintro ⟨h1, -⟩
        exact absurd h1 (not_le.mpr (hall a (List.mem_cons_self a _)))

theorem findBracket_none_of_gt (t : ℚ) :
    ∀ kfs : List KeyframeData, (∀ k ∈ kfs, k.time < t) → findBracket t kfs = none := by
  intro kfs
  induction kfs with
  | nil => intro _; rfl
  | cons a kfs ih =>
    intro hall
    cases kfs with
    | nil => rfl
    | cons b rest =>
      unfold findBracket
      rw [if_neg]
      · exact ih (fun k hk => hall k (List.mem_cons_of_mem a hk))
      · rintro ⟨-, h2⟩
        exact absurd h2 (not_le.mpr (hall b (List.mem_cons_of_mem a (List.mem_cons_self b rest))))

theorem findBracket_eq_some (t : ℚ) :
    ∀ (kfs : List KeyframeData) (i : ℕ) (ka kb : KeyframeData),
      kfs[i]? = some ka → kfs[i + 1]? = some kb →
      ka.time ≤ t → t ≤ kb.time →
      (∀ j kc kd, j < i → kfs[j]? = some kc → kfs[j + 1]? = some kd →
        ¬(kc.time ≤ t ∧ t ≤ kd.time)) →
      findBracket t kfs = some (ka, kb) := by
  intro kfs
  induction kfs with
  | nil =>
    intro i ka kb ha
    simp at ha
  | cons a kfs ih =>
    intro i ka kb ha hb hta htb hmin
    cases i with
    | zero =>
      have ha2 : a = ka := by simpa using ha
      cases kfs with
      | nil => simp at hb
      | cons b rest =>
        have hb2 : b = kb := by simpa using hb
        subst ha2
        subst hb2
        unfold findBracket
        rw [if_pos ⟨hta, htb⟩]
    | succ i =>
      cases kfs with
      | nil => simp at hb
      | cons b rest =>
        have hcond : ¬(a.time ≤ t ∧ t ≤ b.time) :=
          hmin 0 a b (Nat.succ_pos i) (by simp) (by simp)
        unfold findBracket
        rw [if_neg hcond]
        refine ih i ka kb (by simpa using ha) (by simpa using hb) hta htb ?_
        intro j kc kd hj hc hd
        exact hmin (j + 1) kc kd (Nat.succ_lt_succ hj) (by simpa using hc) (by simpa using hd)

theorem all_gt_of_lt_first {kfs : List KeyframeData} {t : ℚ} {k0 : KeyframeData}
    (hs : List.Pairwise (fun a b => a.time ≤ b.time) kfs)
    (h0 : kfs[0]? = some k0) (ht : t < k0.time) :
    ∀ k ∈ kfs, t < k.time := by
  intro k hk
  obtain ⟨i, hi, hki⟩ := List.mem_iff_getElem.mp hk
  obtain ⟨h0len, h0elem⟩ := List.getElem?_eq_some_iff.mp h0
  cases Nat.eq_zero_or_pos i with
  | inl hz =>
    subst hz
    rw [h0elem] at hki
    exact hki ▸ ht
  | inr hpos =>
    have hle : (kfs[0]).time ≤ (kfs[i]).time :=
      (List.pairwise_iff_getElem.mp hs) 0 i h0len hi hpos
    rw [h0elem, hki] at hle
    linarith

theorem all_lt_of_gt_last {kfs : List KeyframeData} {t : ℚ} {kl : KeyframeData}
    (hs : List.Pairwise (fun a b => a.time ≤ b.time) kfs)
    (hl : kfs[kfs.length - 1]? = some kl) (ht : kl.time < t) :
    ∀ k ∈ kfs, k.time < t := by
  intro k hk
  obtain ⟨i, hi, hki⟩ := List.mem_iff_getElem.mp hk
  obtain ⟨hllen, hlelem⟩ := List.getElem?_eq_some_iff.mp hl
  by_cases hil : i = kfs.length - 1
  · subst hil
    rw [hlelem] at hki
    exact hki ▸ ht
  · have hilt : i < kfs.length - 1 := by omega
    have hle : (kfs[i]).time ≤ (kfs[kfs.length - 1]).time :=
      (List.pairwise_iff_getElem.mp hs) i (kfs.length - 1) hi hllen hilt
    rw [hlelem, hki] at hle
    linarith

/-- C10: Action.getPoseAtTime is total exactly when the keyframe list is not
empty.  With at least one keyframe every t produces an ok result (a pose or
an absent result) with every index access in bounds; with an empty keyframe
list the unguarded keyframes[0] / keyframes[length - 1] access (and the
subsequent .pose read) is reached for every t, embedded as the error
result. -/
theorem c10_getPoseAtTime_totality (act : Action) (lib : PoseLibrary) (t : ℚ) :
    (act.keyframes ≠ [] → ∃ r, Action.getPoseAtTime act t lib = Except.ok r) ∧
    (act.keyframes = [] → Action.getPoseAtTime act t lib = Except.error ()) := by
  constructor
  · intro hne
    cases hfb : findBracket t act.keyframes with
    | some pr =>
      obtain ⟨fromKf, toKf⟩ := pr
      cases hf : lib fromKf.pose with
      | none => exact ⟨none, by simp [Action.getPoseAtTime, hfb, hf]⟩
      | some fp =>
        cases ht : lib toKf.pose with
        | none => exact ⟨none, by simp [Action.getPoseAtTime, hfb, hf, ht]⟩
        | some tp =>
          exact ⟨some (Pose.lerp fp tp ((t - fromKf.time) / (toKf.time - fromKf.time))),
            by simp [Action.getPoseAtTime, hfb, hf, ht]⟩
    | none =>
      have hlen : 0 < act.keyframes.length := List.length_pos.mpr hne
      by_cases h0 : t ≤ 0
      · obtain ⟨k0, rest, hk⟩ := List.exists_cons_of_ne_nil hne
        rw [hk] at hfb
        refine ⟨lib k0.pose, ?_⟩
        simp [Action.getPoseAtTime, hfb, h0, hk]
      · have hvalid : act.keyframes.length - 1 < act.keyframes.length := by omega
        refine ⟨lib (act.keyframes[act.keyframes.length - 1]).pose, ?_⟩
        simp [Action.getPoseAtTime, hfb, h0, List.getElem?_eq_getElem hvalid]
  · intro h
    unfold Action.getPoseAtTime
    rw [h]
    by_cases h0 : t ≤ 0 <;> simp [findBracket, h0]

/-- C6: the keyframe bracketing of Action.getPoseAtTime, proved in the
amended form.  Inside the keyframe range the first bracketing pair is
interpolated at the claimed local parameter; outside the range, however, the
code does not clamp by comparison with the first keyframe's time: with no
bracketing pair it returns the first keyframe's pose when t is at most 0 and
the last keyframe's pose otherwise, so a t strictly between 0 and the first
keyframe's time yields the last keyframe's pose, not the first one. -/
theorem c6_getPoseAtTime_bracketing (act : Action) (lib : PoseLibrary) (t : ℚ)
    (hsorted : List.Pairwise (fun a b => a.time ≤ b.time) act.keyframes)
    (hlen : 2 ≤ act.keyframes.length) :
    (∀ k0 kl, act.keyframes[0]? = some k0 →
      act.keyframes[act.keyframes.length - 1]? = some kl →
      (t < k0.time ∨ kl.time < t) →
      ((t ≤ 0 → Action.getPoseAtTime act t lib = .ok (lib k0.pose)) ∧
       (0 < t → Action.getPoseAtTime act t lib = .ok (lib kl.pose)))) ∧
    (∀ i ka kb, act.keyframes[i]? = some ka → act.keyframes[i + 1]? = some kb →
      ka.time ≤ t → t ≤ kb.time →
      (∀ j kc kd, j < i → act.keyframes[j]? = some kc →
        act.keyframes[j + 1]? = some kd → ¬(kc.time ≤ t ∧ t ≤ kd.time)) →
      ∀ fp tp, lib ka.pose = some fp → lib kb.pose = some tp →
        Action.getPoseAtTime act t lib =
          .ok (some (Pose.lerp fp tp ((t - ka.time) / (kb.time - ka.time))))) := by
  constructor
  · rintro k0 kl h0 hl hrange
    have hnone : findBracket t act.keyframes = none := by
      rcases hrange with h | h
      · exact findBracket_none_of_lt t _ (all_gt_of_lt_first hsorted h0 h)
      · exact findBracket_none_of_gt t _ (all_lt_of_gt_last hsorted hl h)
    constructor
    · intro ht0
      unfold Action.getPoseAtTime
      rw [hnone, if_pos ht0, h0]
    · intro ht0
      unfold Action.getPoseAtTime
      rw [hnone, if_neg (not_le.mpr ht0), hl]
  · intro i ka kb ha hb hta htb hmin fp tp hfp htp
    unfold Action.getPoseAtTime
    rw [findBracket_eq_some t act.keyframes i ka kb ha hb hta htb hmin]
    simp [hfp, htp]

/-- C6, witness: the bracketing theorem applied to a two-keyframe action at
times 0 and 1 with t = 1/2, with both poses resolving. -/
theorem c6_witness :
    Action.getPoseAtTime
        { name := "a", duration := 1,
          keyframes := [⟨0, "p", none⟩, ⟨1, "q", none⟩], category := "misc" }
        (1/2)
        (fun n => if n = "p" then some [("arm", ⟨some 10, none, none, none, none⟩)]
          else if n = "q" then some [("arm", ⟨some 20, none, none, none, none⟩)]
          else none) =
      .ok (some (Pose.lerp [("arm", ⟨some 10, none, none, none, none⟩)]
        [("arm", ⟨some 20, none, none, none, none⟩)]
        ((1/2 - (0 : ℚ)) / (1 - (0 : ℚ))))) := by
  refine (c6_getPoseAtTime_bracketing
    { name := "a", duration := 1,
      keyframes := [⟨0, "p", none⟩, ⟨1, "q", none⟩], category := "misc" }
    (fun n => if n = "p" then some [("arm", ⟨some 10, none, none, none, none⟩)]
      else if n = "q" then some [("arm", ⟨some 20, none, none, none, none⟩)]
      else none)
    (1/2) (by decide) (by decide)).2 0
    ⟨0, "p", none⟩ ⟨1, "q", none⟩ rfl rfl (by norm_num) (by norm_num)
    (fun j kc kd hj _ _ => absurd hj (Nat.not_lt_zero j)) _ _ rfl rfl

/-- C6, counterexample: an action whose keyframes sit at times 1/5 and 4/5,
probed at t = 1/10 (below the first keyframe's time but above 0), returns the
last keyframe's pose, not the first keyframe's pose the claim requires. -/
theorem c6_counterexample :
    Action.getPoseAtTime
        { name := "a", duration := 1,
          keyframes := [⟨1/5, "p", none⟩, ⟨4/5, "q", none⟩], category := "misc" }
        (1/10)
        (fun n => if n = "p" then some [("arm", ⟨some 10, none, none, none, none⟩)]
          else if n = "q" then some [("arm", ⟨some 20, none, none, none, none⟩)]
          else none) =
      .ok (some [("arm", ⟨some 20, none, none, none, none⟩)]) ∧
    some [("arm", (⟨some 20, none, none, none, none⟩ : BoneTransformData))] ≠
      some [("arm", (⟨some 10, none, none, none, none⟩ : BoneTransformData))] := by
  constructor
  · unfold Action.getPoseAtTime
    norm_num [findBracket]
    decide
  · decide

/-! ## Lemmas about the sequence duration fold -/

theorem foldl_max_le_init : ∀ (l : List ℚ) (c : ℚ), c ≤ l.foldl max c := by
  intro l
  induction l with
  | nil => intro c; exact le_refl c
  | cons x l ih =>
    intro c
    exact le_trans (le_max_left c x) (ih (max c x))

theorem foldl_max_mem_bound : ∀ (l : List ℚ) (c x : ℚ), x ∈ l → x ≤ l.foldl max c := by
  intro l
  induction l with
  | nil =>
    intro c x hx
    simp at hx
  | cons y l ih =>
    intro c x hx
    rcases List.mem_cons.mp hx with h | h
    · subst h
      exact le_trans (le_max_right c x) (foldl_max_le_init l (max c x))
    · exact ih (max c y) x h

theorem foldl_max_choice : ∀ (l : List ℚ) (c : ℚ), l.foldl max c = c ∨ l.foldl max c ∈ l := by
  intro l
  induction l with
  | nil => intro c; exact Or.inl rfl
  | cons x l ih =>
    intro c
    rcases ih (max c x) with h | h
    · rcases max_choice c x with hc | hc
      · rw [List.foldl_cons, h, hc]
        exact Or.inl rfl
      · rw [List.foldl_cons, h, hc]
        exact Or.inr (List.mem_cons_self x l)
    · exact Or.inr (List.mem_cons_of_mem x h)

theorem getDuration_foldl (lib : ActionLibrary) :
    ∀ (beats : List Beat) (acc : ℚ), 0 ≤ acc →
      beats.foldl
        (fun maxEnd b =>
          match lib b.action with
          | some a => max maxEnd (b.time + a.duration)
          | none => maxEnd)
        acc
      = beats.foldl (fun m b => max m (beatContribution lib b)) acc := by
  intro beats
  induction beats with
  | nil => intro acc _; rfl
  | cons b beats ih =>
    intro acc hacc
    rw [List.foldl_cons, List.foldl_cons]
    cases hlib : lib b.action with
    | some a =>
      have hc : beatContribution lib b = b.time + a.duration := by
        unfold beatContribution
        rw [hlib]
      rw [hc]
      exact ih (max acc (b.time + a.duration))
        (le_trans hacc (le_max_left acc (b.time + a.duration)))
    | none =>
      have hc : beatContribution lib b = 0 := by
        unfold beatContribution
        rw [hlib]
      rw [hc, max_eq_left hacc]
      exact ih acc hacc

theorem getDuration_eq_max (beats : List Beat) (lib : ActionLibrary)
    (hne : beats ≠ []) (hnn : ∀ b ∈ beats, 0 ≤ beatContribution lib b) :
    (beats.map (beatContribution lib)).maximum =
      (Sequence.getDuration beats lib : WithBot ℚ) := by
  have hie : beats.isEmpty = false := by
    cases beats with
    | nil => exact absurd rfl hne
    | cons b bs => rfl
  have h1 : Sequence.getDuration beats lib =
      (beats.map (beatContribution lib)).foldl max 0 := by
    unfold Sequence.getDuration
    rw [hie]
    simp only [Bool.false_eq_true, if_false]
    rw [getDuration_foldl lib beats 0 (le_refl 0), List.foldl_map]
  rw [h1]
  apply List.maximum_eq_coe_iff.mpr
  constructor
  · rcases foldl_max_choice (beats.map (beatContribution lib)) 0 with h | h
    · cases beats with
      | nil => exact absurd rfl hne
      | cons b bs =>
        have hv : 0 ≤ beatContribution lib b := hnn b (List.mem_cons_self b bs)
        have hmem : beatContribution lib b ∈ (b :: bs).map (beatContribution lib) := by
          rw [List.map_cons]
          exact List.mem_cons_self _ _
        have hvle : beatContribution lib b ≤
            ((b :: bs).map (beatContribution lib)).foldl max 0 :=
          foldl_max_mem_bound _ 0 _ hmem
        rw [h] at hvle
        have hv0 : beatContribution lib b = 0 := le_antisymm hvle hv
        rw [h, ← hv0]
        exact hmem
    · exact h
  · intro x hx
    exact foldl_max_mem_bound _ 0 x hx

/-- C7: Sequence.getDuration is 0 on an empty beat list, and otherwise (for
the nonnegative times and durations of the data model) equals the maximum
over all beats of beat.time plus the resolved action's duration, a beat whose
action name does not resolve contributing 0. -/
theorem c7_getDuration (beats : List Beat) (lib : ActionLibrary)
    (ht : ∀ b ∈ beats, 0 ≤ b.time)
    (hd : ∀ b ∈ beats, 0 ≤ (lib b.action).elim 0 (fun a => a.duration)) :
    (beats = [] → Sequence.getDuration beats lib = 0) ∧
    (beats ≠ [] →
      (beats.map (beatContribution lib)).maximum =
        (Sequence.getDuration beats lib : WithBot ℚ)) := by
  constructor
  · intro h
    subst h
    rfl
  · intro hne
    apply getDuration_eq_max beats lib hne
    intro b hb
    unfold beatContribution
    cases hlib : lib b.action with
    | none => exact le_refl 0
    | some a =>
      have h1 := ht b hb
      have h2 := hd b hb
      rw [hlib] at h2
      simp only [Option.elim_some] at h2
      show (0:ℚ) ≤ b.time + a.duration
      linarith

/-- C7, witness: the duration theorem applied to a two-beat list, one beat
resolving to an action of duration 3/10 and one naming a missing action. -/
theorem c7_witness :
    (([⟨0, "A", "jab", none⟩, ⟨1, "B", "missing", none⟩] : List Beat) = [] →
      Sequence.getDuration [⟨0, "A", "jab", none⟩, ⟨1, "B", "missing", none⟩]
        (fun n => if n = "jab"
          then some { name := "jab", duration := 3, keyframes := [], category := "attack" }
          else none) = 0) ∧
    (([⟨0, "A", "jab", none⟩, ⟨1, "B", "missing", none⟩] : List Beat) ≠ [] →
      (([⟨0, "A", "jab", none⟩, ⟨1, "B", "missing", none⟩] : List Beat).map
          (beatContribution (fun n => if n = "jab"
            then some { name := "jab", duration := 3, keyframes := [], category := "attack" }
            else none))).maximum =
        ((Sequence.getDuration [⟨0, "A", "jab", none⟩, ⟨1, "B", "missing", none⟩]
          (fun n => if n = "jab"
            then some { name := "jab", duration := 3, keyframes := [], category := "attack" }
            else none) : ℚ) : WithBot ℚ)) :=
  c7_getDuration [⟨0, "A", "jab", none⟩, ⟨1, "B", "missing", none⟩]
    (fun n => if n = "jab"
      then some { name := "jab", duration := 3, keyframes := [], category := "attack" }
      else none)
    (by decide) (by decide)

/-! ## Lemmas about the beat sort -/

theorem sorted_addBeat (beats : List Beat) (b : Beat) :
    List.Sorted beatLE (Sequence.addBeat beats b) :=
  List.sorted_insertionSort beatLE _

theorem sorted_foldl_addBeat : ∀ (l acc : List Beat),
    List.Sorted beatLE acc → List.Sorted beatLE (l.foldl Sequence.addBeat acc) := by
  intro l
  induction l with
  | nil => exact fun acc h => h
  | cons b l ih =>
    intro acc _
    exact ih (Sequence.addBeat acc b) (sorted_addBeat acc b)

theorem filter_orderedInsert_of_eq (τ : ℚ) (a : Beat) (ha : a.time = τ) :
    ∀ l : List Beat,
      (List.orderedInsert beatLE a l).filter (fun x => decide (x.time = τ)) =
        a :: l.filter (fun x => decide (x.time = τ)) := by
  intro l
  induction l with
  | nil => simp [List.orderedInsert, ha]
  | cons x l ih =>
    show (if beatLE a x then a :: x :: l else x :: List.orderedInsert beatLE a l).filter
        (fun x => decide (x.time = τ)) = _
    by_cases hax : beatLE a x
    · rw [if_pos hax]
      simp [List.filter_cons, ha]
    · rw [if_neg hax]
      have hx : ¬x.time = τ := by
        unfold beatLE at hax
        push_neg at hax
        intro hc
        rw [hc, ← ha] at hax
        exact absurd hax (lt_irrefl a.time)
      rw [List.filter_cons, List.filter_cons]
      simp only [decide_eq_false hx, if_false]
      exact ih

theorem filter_orderedInsert_of_ne (τ : ℚ) (a : Beat) (ha : ¬a.time = τ) :
    ∀ l : List Beat,
      (List.orderedInsert beatLE a l).filter (fun x => decide (x.time = τ)) =
        l.filter (fun x => decide (x.time = τ)) := by
  intro l
  induction l with
  | nil => simp [List.orderedInsert, ha]
  | cons x l ih =>
    show (if beatLE a x then a :: x :: l else x :: List.orderedInsert beatLE a l).filter
        (fun x => decide (x.time = τ)) = _
    by_cases hax : beatLE a x
    · rw [if_pos hax]
      simp [List.filter_cons, ha]
    · rw [if_neg hax]
      rw [List.filter_cons, List.filter_cons]
      by_cases hx : x.time = τ
      · simp only [decide_eq_true_eq, hx, if_true]
        rw [ih]
      · simp only [decide_eq_false hx, if_false]
        exact ih

theorem filter_insertionSort (τ : ℚ) :
    ∀ l : List Beat,
      (List.insertionSort beatLE l).filter (fun x => decide (x.time = τ)) =
        l.filter (fun x => decide (x.time = τ)) := by
  intro l
  induction l with
  | nil => rfl
  | cons a l ih =>
    show (List.orderedInsert beatLE a (List.insertionSort beatLE l)).filter
        (fun x => decide (x.time = τ)) = _
    by_cases ha : a.time = τ
    · rw [filter_orderedInsert_of_eq τ a ha, ih, List.filter_cons]
      simp [ha]
    · rw [filter_orderedInsert_of_ne τ a ha, ih, List.filter_cons]
      simp [ha]

theorem filter_foldl_addBeat (τ : ℚ) :
    ∀ l acc : List Beat,
      (l.foldl Sequence.addBeat acc).filter (fun x => decide (x.time = τ)) =
        acc.filter (fun x => decide (x.time = τ)) ++ l.filter (fun x => decide (x.time = τ)) := by
  intro l
  induction l with
  | nil =>
    intro acc
    simp
  | cons b l ih =>
    intro acc
    rw [List.foldl_cons, ih (Sequence.addBeat acc b)]
    unfold Sequence.addBeat
    rw [filter_insertionSort, List.filter_append, List.filter_cons]
    by_cases hb : b.time = τ
    · simp [hb]
    · simp [hb]

/-- C8: starting from the empty sequence, after every sequence of addBeat
calls the beat list is sorted ascending by time, and for every time value the
beats carrying that time appear in exactly their insertion order (the sort,
modelling the stable Array.prototype.sort, preserves the relative order of
equal-time beats). -/
theorem c8_addBeat_sorted_stable (l : List Beat) :
    List.Sorted beatLE (l.foldl Sequence.addBeat []) ∧
    ∀ τ : ℚ, (l.foldl Sequence.addBeat []).filter (fun x => decide (x.time = τ)) =
      l.filter (fun x => decide (x.time = τ)) := by
  constructor
  · exact sorted_foldl_addBeat l [] List.sorted_nil
  · intro τ
    rw [filter_foldl_addBeat τ l []]
    rfl

/-! ## Lemmas about the bone tree traversal -/

theorem updateWorldTransform_eq (pw : Option WorldTransform) (b : Bone) :
    Bone.updateWorldTransform pw b =
      WorldTree.mk (nodeWorld pw b.localTransform)
        (Bone.updateChildren (nodeWorld pw b.localTransform) b.children) := by
  cases b with
  | mk lt cs =>
    rw [Bone.updateWorldTransform]
    rfl

theorem world_updateWorldTransform (pw : Option WorldTransform) (b : Bone) :
    (Bone.updateWorldTransform pw b).world = nodeWorld pw b.localTransform := by
  rw [updateWorldTransform_eq]
  rfl

theorem children_updateWorldTransform (pw : Option WorldTransform) (b : Bone) :
    (Bone.updateWorldTransform pw b).children =
      Bone.updateChildren (nodeWorld pw b.localTransform) b.children := by
  rw [updateWorldTransform_eq]
  rfl

theorem updateChildren_getElem (w : WorldTransform) :
    ∀ (cs : List Bone) (i : ℕ),
      (Bone.updateChildren w cs)[i]? = (cs[i]?).map (Bone.updateWorldTransform (some w)) := by
  intro cs
  induction cs with
  | nil =>
    intro i
    rw [Bone.updateChildren]
    simp
  | cons c cs ih =>
    intro i
    rw [Bone.updateChildren]
    cases i with
    | zero => simp
    | succ i => simpa using ih i

theorem worldAt_nil (t : WorldTree) : worldAt [] t = some t.world := rfl

theorem subtreeAt_cons (i : ℕ) (p : List ℕ) (b : Bone) :
    subtreeAt (i :: p) b = (b.children[i]?).bind (subtreeAt p) := by
  cases hc : b.children[i]? with
  | none => simp [subtreeAt, hc]
  | some c => simp [subtreeAt, hc]

theorem worldAt_cons (i : ℕ) (q : List ℕ) (pw : Option WorldTransform) (b : Bone) :
    worldAt (i :: q) (Bone.updateWorldTransform pw b) =
      (b.children[i]?).bind
        (fun c => worldAt q
          (Bone.updateWorldTransform (some (nodeWorld pw b.localTransform)) c)) := by
  cases hc : b.children[i]? with
  | none => simp [worldAt, children_updateWorldTransform, updateChildren_getElem, hc]
  | some c => simp [worldAt, children_updateWorldTransform, updateChildren_getElem, hc]

theorem parentWorldAt_cons (i : ℕ) (p : List ℕ) (pw : Option WorldTransform) (b : Bone) :
    parentWorldAt pw (i :: p) b =
      (b.children[i]?).bind
        (fun c => parentWorldAt (some (nodeWorld pw b.localTransform)) p c) := by
  cases hc : b.children[i]? with
  | none => simp [parentWorldAt, hc]
  | some c => simp [parentWorldAt, hc]

theorem addLocalRotation_children (θ : ℝ) (b : Bone) :
    (Bone.addLocalRotation θ b).children = b.children := by
  cases b with
  | mk lt cs => rfl

theorem addLocalRotation_localTransform (θ : ℝ) (b : Bone) :
    (Bone.addLocalRotation θ b).localTransform =
      { b.localTransform with rotation := b.localTransform.rotation + θ } := by
  cases b with
  | mk lt cs => rfl

theorem addRotationAt_cons (θ : ℝ) (i : ℕ) (p : List ℕ) (b : Bone) :
    addRotationAt θ (i :: p) b =
      Bone.mk b.localTransform (modifyAt (addRotationAt θ p) i b.children) := rfl

theorem modifyAt_getElem (f : α → α) :
    ∀ (l : List α) (i j : ℕ),
      (modifyAt f i l)[j]? = if i = j then (l[j]?).map f else l[j]? := by
  intro l
  induction l with
  | nil =>
    intro i j
    simp [modifyAt]
  | cons x xs ih =>
    intro i j
    cases i with
    | zero =>
      cases j with
      | zero => simp [modifyAt]
      | succ j => simp [modifyAt]
    | succ i =>
      cases j with
      | zero => simp [modifyAt]
      | succ j =>
        simp only [modifyAt, List.getElem?_cons_succ, ih i j]
        by_cases h : i = j
        · rw [if_pos h, if_pos (by omega)]
        · rw [if_neg h, if_neg (by omega)]

theorem subtreeAt_addRotationAt_below (θ : ℝ) :
    ∀ (p : List ℕ) (j : ℕ) (q : List ℕ) (b : Bone),
      subtreeAt (p ++ j :: q) (addRotationAt θ p b) = subtreeAt (p ++ j :: q) b := by
  intro p
  induction p with
  | nil =>
    intro j q b
    rw [List.nil_append, subtreeAt_cons, subtreeAt_cons]
    rw [show (addRotationAt θ [] b).children = b.children from addLocalRotation_children θ b]
  | cons i p ih =>
    intro j q b
    rw [List.cons_append, subtreeAt_cons, subtreeAt_cons]
    rw [show (addRotationAt θ (i :: p) b).children =
      modifyAt (addRotationAt θ p) i b.children from rfl]
    rw [modifyAt_getElem, if_pos rfl]
    cases hc : b.children[i]? with
    | none => rfl
    | some c =>
      simp only [Option.map_some', Option.some_bind]
      exact ih j q c

theorem subtreeAt_addRotationAt (θ : ℝ) :
    ∀ (p : List ℕ) (b : Bone),
      subtreeAt p (addRotationAt θ p b) =
        (subtreeAt p b).map (Bone.addLocalRotation θ) := by
  intro p
  induction p with
  | nil =>
    intro b
    rfl
  | cons i p ih =>
    intro b
    rw [subtreeAt_cons, subtreeAt_cons]
    rw [show (addRotationAt θ (i :: p) b).children =
      modifyAt (addRotationAt θ p) i b.children from rfl]
    rw [modifyAt_getElem, if_pos rfl]
    cases hc : b.children[i]? with
    | none => rfl
    | some c =>
      simp only [Option.map_some', Option.some_bind]
      exact ih c

theorem parentWorldAt_addRotationAt (θ : ℝ) :
    ∀ (p : List ℕ) (b : Bone) (pw : Option WorldTransform),
      parentWorldAt pw p (addRotationAt θ p b) = parentWorldAt pw p b := by
  intro p
  induction p with
  | nil =>
    intro b pw
    rfl
  | cons i p ih =>
    intro b pw
    rw [parentWorldAt_cons, parentWorldAt_cons]
    rw [show (addRotationAt θ (i :: p) b).children =
      modifyAt (addRotationAt θ p) i b.children from rfl]
    rw [show (addRotationAt θ (i :: p) b).localTransform = b.localTransform from rfl]
    rw [modifyAt_getElem, if_pos rfl]
    cases hc : b.children[i]? with
    | none => rfl
    | some c =>
      simp only [Option.map_some', Option.some_bind]
      exact ih c (some (nodeWorld pw b.localTransform))

/-! ## Rotation propagation through the hierarchy -/

theorem degRad_add (a b : ℝ) : degRad (a + b) = degRad a + degRad b := by
  unfold degRad
  ring

theorem WorldTransform.ext_fields (a b : WorldTransform)
    (hx : a.worldX = b.worldX) (hy : a.worldY = b.worldY)
    (hr : a.worldRotation = b.worldRotation) : a = b := by
  cases a
  cases b
  simp only [WorldTransform.mk.injEq]
  exact ⟨hx, hy, hr⟩

/-- Composing one hierarchy step with a rotated parent frame: rotating the
parent's world transform by θ about a point rotates every child world
transform by θ about the same point. -/
theorem childWorld_rotateWorld (ox oy θ : ℝ) (w : WorldTransform) (lt : Transform) :
    childWorld (rotateWorld ox oy θ w) lt = rotateWorld ox oy θ (childWorld w lt) := by
  apply WorldTransform.ext_fields <;>
    (simp only [childWorld, rotateWorld, degRad_add, Real.cos_add, Real.sin_add]; try ring)

theorem rotateWorld_self (θ : ℝ) (w : WorldTransform) :
    rotateWorld w.worldX w.worldY θ w =
      { worldX := w.worldX, worldY := w.worldY, worldRotation := w.worldRotation + θ } := by
  apply WorldTransform.ext_fields <;>
    (simp only [rotateWorld]; try ring)

theorem nodeWorld_addLocalRotation (pw : Option WorldTransform) (θ : ℝ) (lt : Transform) :
    nodeWorld pw { lt with rotation := lt.rotation + θ } =
      rotateWorld (nodeWorld pw lt).worldX (nodeWorld pw lt).worldY θ (nodeWorld pw lt) := by
  rw [rotateWorld_self]
  cases pw with
  | none => rfl
  | some w =>
    apply WorldTransform.ext_fields <;>
      (simp only [nodeWorld, childWorld]; try ring)

theorem worldAt_update_rotated (ox oy θ : ℝ) :
    ∀ (q : List ℕ) (b : Bone) (w : WorldTransform),
      worldAt q (Bone.updateWorldTransform (some (rotateWorld ox oy θ w)) b) =
        (worldAt q (Bone.updateWorldTransform (some w) b)).map (rotateWorld ox oy θ) := by
  intro q
  induction q with
  | nil =>
    intro b w
    rw [worldAt_nil, worldAt_nil, world_updateWorldTransform, world_updateWorldTransform]
    rw [Option.map_some']
    congr 1
    exact childWorld_rotateWorld ox oy θ w b.localTransform
  | cons i q ih =>
    intro b w
    rw [worldAt_cons, worldAt_cons]
    cases hc : b.children[i]? with
    | none => rfl
    | some c =>
      simp only [Option.some_bind]
      have hnw : nodeWorld (some (rotateWorld ox oy θ w)) b.localTransform =
          rotateWorld ox oy θ (nodeWorld (some w) b.localTransform) :=
        childWorld_rotateWorld ox oy θ w b.localTransform
      rw [hnw]
      exact ih c (nodeWorld (some w) b.localTransform)

theorem subtreeAt_append :
    ∀ (p r : List ℕ) (b : Bone),
      subtreeAt (p ++ r) b = (subtreeAt p b).bind (subtreeAt r) := by
  intro p
  induction p with
  | nil =>
    intro r b
    rfl
  | cons i p ih =>
    intro r b
    rw [List.cons_append, subtreeAt_cons, subtreeAt_cons]
    cases hc : b.children[i]? with
    | none => rfl
    | some c =>
      simp only [Option.some_bind]
      exact ih r c

/-- Path decomposition of one update pass: the bone at a path receives the
world transform computed from its local transform and the parent world
reaching it, and everything below it is the update of its subtree under that
parent world. -/
theorem worldAt_append (r : List ℕ) :
    ∀ (p : List ℕ) (b : Bone) (pw : Option WorldTransform) (P : Bone),
      subtreeAt p b = some P →
      ∃ wPar : Option WorldTransform,
        parentWorldAt pw p b = some wPar ∧
        worldAt p (Bone.updateWorldTransform pw b) =
          some (nodeWorld wPar P.localTransform) ∧
        worldAt (p ++ r) (Bone.updateWorldTransform pw b) =
          worldAt r (Bone.updateWorldTransform wPar P) := by
  intro p
  induction p with
  | nil =>
    intro b pw P hP
    have hbP : b = P := by simpa [subtreeAt] using hP
    subst hbP
    refine ⟨pw, rfl, ?_, rfl⟩
    rw [worldAt_nil, world_updateWorldTransform]
  | cons i p ih =>
    intro b pw P hP
    rw [subtreeAt_cons] at hP
    cases hc : b.children[i]? with
    | none =>
      rw [hc] at hP
      simp at hP
    | some c =>
      rw [hc] at hP
      simp only [Option.some_bind] at hP
      obtain ⟨wPar, hw1, hw2, hw3⟩ := ih c (some (nodeWorld pw b.localTransform)) P hP
      refine ⟨wPar, ?_, ?_, ?_⟩
      · rw [parentWorldAt_cons, hc]
        simpa using hw1
      · rw [worldAt_cons, hc]
        simpa using hw2
      · rw [List.cons_append, worldAt_cons, hc]
        simpa using hw3

theorem subtreeAt_append_single :
    ∀ (p : List ℕ) (i : ℕ) (b child : Bone),
      subtreeAt (p ++ [i]) b = some child →
      ∃ P, subtreeAt p b = some P ∧ P.children[i]? = some child := by
  intro p
  induction p with
  | nil =>
    intro i b child h
    rw [List.nil_append, subtreeAt_cons] at h
    refine ⟨b, rfl, ?_⟩
    cases hc : b.children[i]? with
    | none =>
      rw [hc] at h
      simp at h
    | some c =>
      rw [hc] at h
      simp only [Option.some_bind] at h
      have hcc : c = child := by simpa [subtreeAt] using h
      rw [hcc]
  | cons j p ih =>
    intro i b child h
    rw [List.cons_append, subtreeAt_cons] at h
    cases hc : b.children[j]? with
    | none =>
      rw [hc] at h
      simp at h
    | some c =>
      rw [hc] at h
      simp only [Option.some_bind] at h
      obtain ⟨P, hP, hchild⟩ := ih i c child h
      refine ⟨P, ?_, hchild⟩
      rw [subtreeAt_cons, hc]
      simpa using hP

/-- C1: after Skeleton.updateTransforms, every bone with a parent carries
worldRotation = parent.worldRotation + local.rotation and a world position
equal to the parent world position plus the local offset rotated by the
parent world rotation (in radians), while every root bone's world transform
equals its local transform verbatim. -/
theorem c1_updateWorldTransform (rs : List Bone) (rIdx : ℕ) (p : List ℕ) (i : ℕ)
    (root child : Bone)
    (hroot : rs[rIdx]? = some root)
    (hc : subtreeAt (p ++ [i]) root = some child) :
    ∃ wt wp w,
      (Skeleton.updateTransforms rs)[rIdx]? = some wt ∧
      worldAt p wt = some wp ∧
      worldAt (p ++ [i]) wt = some w ∧
      w.worldRotation = wp.worldRotation + child.localTransform.rotation ∧
      w.worldX = wp.worldX + (child.localTransform.x * Real.cos (degRad wp.worldRotation)
        - child.localTransform.y * Real.sin (degRad wp.worldRotation)) ∧
      w.worldY = wp.worldY + (child.localTransform.x * Real.sin (degRad wp.worldRotation)
        + child.localTransform.y * Real.cos (degRad wp.worldRotation)) ∧
      worldAt [] wt =
        some ⟨root.localTransform.x, root.localTransform.y,
          root.localTransform.rotation⟩ := by
  obtain ⟨P, hP, hchildIdx⟩ := subtreeAt_append_single p i root child hc
  obtain ⟨wPar, hw1, hw2, hw3⟩ := worldAt_append [i] p root none P hP
  have hwt : (Skeleton.updateTransforms rs)[rIdx]? =
      some (Bone.updateWorldTransform none root) := by
    unfold Skeleton.updateTransforms
    rw [List.getElem?_map, hroot, Option.map_some']
  refine ⟨Bone.updateWorldTransform none root, nodeWorld wPar P.localTransform,
    childWorld (nodeWorld wPar P.localTransform) child.localTransform,
    hwt, hw2, ?_, rfl, rfl, rfl, ?_⟩
  · rw [hw3, worldAt_cons, hchildIdx]
    simp only [Option.some_bind]
    rw [worldAt_nil, world_updateWorldTransform]
    rfl
  · rw [worldAt_nil, world_updateWorldTransform]
    rfl

/-- C1, witness: the world-transform theorem applied to a two-bone chain,
the child at path [0] under the root. -/
theorem c1_witness :
    ∃ wt wp w,
      (Skeleton.updateTransforms
        [Bone.mk ⟨1, 2, 30, 1, 1⟩ [Bone.mk ⟨5, 0, 40, 1, 1⟩ []]])[0]? = some wt ∧
      worldAt [] wt = some wp ∧
      worldAt ([] ++ [0]) wt = some w ∧
      w.worldRotation = wp.worldRotation +
        (Bone.mk (⟨5, 0, 40, 1, 1⟩ : Transform) []).localTransform.rotation ∧
      w.worldX = wp.worldX +
        ((Bone.mk (⟨5, 0, 40, 1, 1⟩ : Transform) []).localTransform.x *
            Real.cos (degRad wp.worldRotation)
          - (Bone.mk (⟨5, 0, 40, 1, 1⟩ : Transform) []).localTransform.y *
            Real.sin (degRad wp.worldRotation)) ∧
      w.worldY = wp.worldY +
        ((Bone.mk (⟨5, 0, 40, 1, 1⟩ : Transform) []).localTransform.x *
            Real.sin (degRad wp.worldRotation)
          + (Bone.mk (⟨5, 0, 40, 1, 1⟩ : Transform) []).localTransform.y *
            Real.cos (degRad wp.worldRotation)) ∧
      worldAt [] wt =
        some ⟨(Bone.mk (⟨1, 2, 30, 1, 1⟩ : Transform)
            [Bone.mk ⟨5, 0, 40, 1, 1⟩ []]).localTransform.x,
          (Bone.mk (⟨1, 2, 30, 1, 1⟩ : Transform)
            [Bone.mk ⟨5, 0, 40, 1, 1⟩ []]).localTransform.y,
          (Bone.mk (⟨1, 2, 30, 1, 1⟩ : Transform)
            [Bone.mk ⟨5, 0, 40, 1, 1⟩ []]).localTransform.rotation⟩ :=
  c1_updateWorldTransform
    [Bone.mk ⟨1, 2, 30, 1, 1⟩ [Bone.mk ⟨5, 0, 40, 1, 1⟩ []]] 0 [] 0
    (Bone.mk ⟨1, 2, 30, 1, 1⟩ [Bone.mk ⟨5, 0, 40, 1, 1⟩ []])
    (Bone.mk ⟨5, 0, 40, 1, 1⟩ []) rfl rfl

/-- C3: adding θ to the local rotation of the bone at a path and re-running
Skeleton.updateTransforms rotates every descendant's world position by θ
about that bone's world origin and adds θ to the descendant's world rotation
(rotateWorld spells out exactly that rotation), while the descendant's local
transform — all five fields — is unchanged. -/
theorem c3_parent_rotation (rs : List Bone) (rIdx : ℕ) (p : List ℕ) (j : ℕ) (q : List ℕ)
    (θ : ℝ) (root P D : Bone)
    (hroot : rs[rIdx]? = some root)
    (hP : subtreeAt p root = some P)
    (hD : subtreeAt (p ++ j :: q) root = some D) :
    ∃ wt wt' wP wD,
      (Skeleton.updateTransforms rs)[rIdx]? = some wt ∧
      (Skeleton.updateTransforms (modifyAt (addRotationAt θ p) rIdx rs))[rIdx]? = some wt' ∧
      (subtreeAt (p ++ j :: q) (addRotationAt θ p root)).map Bone.localTransform =
        some D.localTransform ∧
      worldAt p wt = some wP ∧
      worldAt (p ++ j :: q) wt = some wD ∧
      worldAt (p ++ j :: q) wt' = some (rotateWorld wP.worldX wP.worldY θ wD) := by
  have hwt : (Skeleton.updateTransforms rs)[rIdx]? =
      some (Bone.updateWorldTransform none root) := by
    unfold Skeleton.updateTransforms
    rw [List.getElem?_map, hroot, Option.map_some']
  have hwt' : (Skeleton.updateTransforms (modifyAt (addRotationAt θ p) rIdx rs))[rIdx]? =
      some (Bone.updateWorldTransform none (addRotationAt θ p root)) := by
    unfold Skeleton.updateTransforms
    rw [List.getElem?_map, modifyAt_getElem, if_pos rfl, hroot]
    rfl
  obtain ⟨wPar, hw1, hw2, hw3⟩ := worldAt_append (j :: q) p root none P hP
  have hP' : subtreeAt p (addRotationAt θ p root) = some (Bone.addLocalRotation θ P) := by
    rw [subtreeAt_addRotationAt θ p root, hP, Option.map_some']
  obtain ⟨wPar', hw1', hw2', hw3'⟩ :=
    worldAt_append (j :: q) p (addRotationAt θ p root) none (Bone.addLocalRotation θ P) hP'
  have hwParEq : wPar = wPar' := by
    rw [parentWorldAt_addRotationAt θ p root, hw1] at hw1'
    exact Option.some_inj.mp hw1'
  subst hwParEq
  obtain ⟨wParD, hwD1, hwD2, hwD3⟩ := worldAt_append [] (p ++ j :: q) root none D hD
  refine ⟨Bone.updateWorldTransform none root,
    Bone.updateWorldTransform none (addRotationAt θ p root),
    nodeWorld wPar P.localTransform,
    nodeWorld wParD D.localTransform,
    hwt, hwt', ?_, hw2, hwD2, ?_⟩
  · rw [subtreeAt_addRotationAt_below θ p j q root, hD, Option.map_some']
  · rw [hw3', worldAt_cons, addLocalRotation_children]
    have hnw : nodeWorld wPar (Bone.addLocalRotation θ P).localTransform =
        rotateWorld (nodeWorld wPar P.localTransform).worldX
          (nodeWorld wPar P.localTransform).worldY θ (nodeWorld wPar P.localTransform) := by
      rw [addLocalRotation_localTransform]
      exact nodeWorld_addLocalRotation wPar θ P.localTransform
    rw [hnw]
    cases hcj : P.children[j]? with
    | none =>
      exfalso
      have hnone : worldAt (p ++ j :: q) (Bone.updateWorldTransform none root) = none := by
        rw [hw3, worldAt_cons, hcj]
        rfl
      rw [hwD2] at hnone
      exact Option.noConfusion hnone
    | some c =>
      simp only [Option.some_bind]
      rw [worldAt_update_rotated (nodeWorld wPar P.localTransform).worldX
        (nodeWorld wPar P.localTransform).worldY θ q c (nodeWorld wPar P.localTransform)]
      have hqc : worldAt q (Bone.updateWorldTransform
          (some (nodeWorld wPar P.localTransform)) c) =
          some (nodeWorld wParD D.localTransform) := by
        have h1 : worldAt (j :: q) (Bone.updateWorldTransform wPar P) =
            some (nodeWorld wParD D.localTransform) := by
          rw [← hw3]
          exact hwD2
        rw [worldAt_cons, hcj] at h1
        simpa using h1
      rw [hqc]
      rfl

/-- C3, witness: the rotation-propagation theorem applied to a two-bone
chain, rotating the root by 45 degrees and observing the child. -/
theorem c3_witness :
    ∃ wt wt' wP wD,
      (Skeleton.updateTransforms
        [Bone.mk ⟨0, 0, 0, 1, 1⟩ [Bone.mk ⟨3, 0, 90, 1, 1⟩ []]])[0]? = some wt ∧
      (Skeleton.updateTransforms (modifyAt (addRotationAt 45 []) 0
        [Bone.mk ⟨0, 0, 0, 1, 1⟩ [Bone.mk ⟨3, 0, 90, 1, 1⟩ []]]))[0]? = some wt' ∧
      (subtreeAt ([] ++ 0 :: []) (addRotationAt 45 []
          (Bone.mk ⟨0, 0, 0, 1, 1⟩ [Bone.mk ⟨3, 0, 90, 1, 1⟩ []]))).map
        Bone.localTransform =
        some (Bone.mk (⟨3, 0, 90, 1, 1⟩ : Transform) []).localTransform ∧
      worldAt [] wt = some wP ∧
      worldAt ([] ++ 0 :: []) wt = some wD ∧
      worldAt ([] ++ 0 :: []) wt' = some (rotateWorld wP.worldX wP.worldY 45 wD) :=
  c3_parent_rotation [Bone.mk ⟨0, 0, 0, 1, 1⟩ [Bone.mk ⟨3, 0, 90, 1, 1⟩ []]] 0 [] 0 []
    45 (Bone.mk ⟨0, 0, 0, 1, 1⟩ [Bone.mk ⟨3, 0, 90, 1, 1⟩ []])
    (Bone.mk ⟨0, 0, 0, 1, 1⟩ [Bone.mk ⟨3, 0, 90, 1, 1⟩ []])
    (Bone.mk ⟨3, 0, 90, 1, 1⟩ []) rfl rfl rfl

end StickFigure
